import Mathlib

/-!
# Verification of `src/json_parser.cpp`

A shallow embedding of the recursive-descent JSON parser and its value
model.  The input buffer is a `List Char`, the cursor a `Nat`.  The C++
`parse` function contains `while` loops whose bodies call `parse`
recursively and which can fail to make progress; the embedding therefore
threads an explicit fuel parameter, with `none` denoting a computation
that never finishes (no amount of fuel suffices).

Machine-integer conventions (LP64, the platform the file targets):
`int` is 32 bits, `long` is 64 bits.  `strtol` saturates at the `long`
bounds; the assignment of its result to the `int` out-parameter wraps
modulo 2^32.  `strtod` is modelled with exact rational arithmetic; no
theorem below depends on the value of a non-integral double.
-/

/-- `std::string::operator[]`: valid for indices up to and including
`size()`, where it yields the null character.  The parser indexes only
within that range. -/
def charAt (json : List Char) (i : Nat) : Char :=
  json.getD i '\x00'

/-- C `isspace` in the default locale: space, `\t`, `\n`, `\v`, `\f`, `\r`. -/
def isspaceC (c : Char) : Bool :=
  c = ' ' || c = '\t' || c = '\n' || c = '\x0B' || c = '\x0C' || c = '\r'

/-- C `isdigit`: the characters `'0'` through `'9'`. -/
def isDigitC (c : Char) : Bool :=
  '0' ≤ c && c ≤ '9'

/-- Numeric value of a digit character. -/
def digitVal (c : Char) : Nat :=
  c.toNat - '0'.toNat

/-- The digit character for a value `0 ≤ d ≤ 9`. -/
def digitCh (d : Nat) : Char :=
  match d with
  | 0 => '0' | 1 => '1' | 2 => '2' | 3 => '3' | 4 => '4'
  | 5 => '5' | 6 => '6' | 7 => '7' | 8 => '8' | _ => '9'

/-- Value of a digit string read most-significant first, as `strtol`
accumulates it. -/
def valNat (l : List Char) : Nat :=
  l.foldl (fun a c => a * 10 + digitVal c) 0

/-- Longest prefix of decimal digits. -/
def takeDigits (l : List Char) : List Char :=
  l.takeWhile isDigitC

/-- An optional `+`/`-` sign, as consumed by `strtol`/`strtod`:
returns (negative?, remainder). -/
def readSign (l : List Char) : Bool × List Char :=
  match l with
  | c :: tl => if c = '-' then (true, tl) else if c = '+' then (false, tl) else (false, l)
  | [] => (false, l)

/-- The tagged JSON value produced by the parser (`struct JSONObject`).
`dictVal` is modelled as an association list in insertion order; the C++
`std::unordered_map` leaves iteration order unspecified, so insertion
order is the defined-order policy chosen for the model. -/
inductive JSONObject : Type where
  | null : JSONObject
  | bool (b : Bool) : JSONObject
  | int (i : Int) : JSONObject
  | double (q : ℚ) : JSONObject
  | str (s : List Char) : JSONObject
  | list (l : List JSONObject) : JSONObject
  | dict (d : List (List Char × JSONObject)) : JSONObject

/-- `unescaped_char`: the fixed escape table. -/
def unescaped_char (c : Char) : Char :=
  if c = 'n' then '\n'
  else if c = 'r' then '\r'
  else if c = '0' then '\x00'
  else if c = 't' then '\t'
  else if c = 'v' then '\x0B'
  else if c = 'f' then '\x0C'
  else if c = 'b' then '\x08'
  else if c = 'a' then '\x07'
  else c

/-- Conversion of a `long` value to `int` on assignment: wrap modulo
2^32 into `[-2^31, 2^31)`. -/
def wrap32 (v : Int) : Int :=
  (v + 2 ^ 31) % 2 ^ 32 - 2 ^ 31

/-- `try_parse_int`: `strtol(str, &end, 10)` followed by the check
`*end == '\0'`.  `strtol` skips leading whitespace, consumes an optional
sign and the longest run of digits, and saturates at the `long` bounds;
with no digits it converts nothing and leaves `end` at the start.  The
result is assigned to an `int`, wrapping. -/
def try_parse_int (l : List Char) : Option Int :=
  let l1 := l.dropWhile isspaceC
  let sr := readSign l1
  let ds := takeDigits sr.2
  if ds = [] then
    -- no conversion: end == nptr, so success iff the text was empty
    if l = [] then some 0 else none
  else
    let v : Int := if sr.1 then -(valNat ds : Int) else (valNat ds : Int)
    let clamped := max (-(2 ^ 63)) (min (2 ^ 63 - 1) v)
    if sr.2.drop ds.length = [] then some (wrap32 clamped) else none

/-- `try_parse_double`: `strtod(str, &end)` followed by `*end == '\0'`.
Decimal forms only (`inf`/`nan`/hex literals cannot arise from the
number regex, which is the only caller).  The value is the exact
rational denoted by the literal; real `strtod` rounds it to the nearest
`double`, an abstraction no theorem below depends on. -/
def try_parse_double (l : List Char) : Option ℚ :=
  let l1 := l.dropWhile isspaceC
  let sr := readSign l1
  let ip := takeDigits sr.2
  let l3 := sr.2.drop ip.length
  let fp : List Char × List Char :=
    match l3 with
    | c :: tl =>
      if c = '.' then (takeDigits tl, tl.drop (takeDigits tl).length) else ([], l3)
    | [] => ([], l3)
  if ip = [] ∧ fp.1 = [] then none
  else
    let mant : ℚ := (valNat ip : ℚ) + (valNat fp.1 : ℚ) / (10 : ℚ) ^ fp.1.length
    let ex : Int × List Char :=
      match fp.2 with
      | c :: tl =>
        if c = 'e' ∨ c = 'E' then
          let es := readSign tl
          let eds := takeDigits es.2
          if eds = [] then (0, fp.2)
          else ((if es.1 then -(valNat eds : Int) else (valNat eds : Int)),
                es.2.drop eds.length)
        else (0, fp.2)
      | [] => (0, fp.2)
    if ex.2 = [] then
      some ((if sr.1 then -1 else 1) * mant * (10 : ℚ) ^ ex.1)
    else none

/-- Anchored match of the number regex
`[+-]?[0-9]+(\.[0-9]*)?([eE][+-]?[0-9]+)?` at the head of `l`
(ECMAScript greedy semantics), returning the matched text. -/
def numMatchAt (l : List Char) : Option (List Char) :=
  let sg : List Char × List Char :=
    match l with
    | c :: tl => if c = '+' ∨ c = '-' then ([c], tl) else ([], l)
    | [] => ([], [])
  let ds := takeDigits sg.2
  if ds = [] then none
  else
    let r2 := sg.2.drop ds.length
    let fr : List Char × List Char :=
      match r2 with
      | c :: tl =>
        if c = '.' then (c :: takeDigits tl, tl.drop (takeDigits tl).length)
        else ([], r2)
      | [] => ([], r2)
    let ex : List Char :=
      match fr.2 with
      | c :: tl =>
        if c = 'e' ∨ c = 'E' then
          match tl with
          | c2 :: tl2 =>
            if c2 = '+' ∨ c2 = '-' then
              if takeDigits tl2 = [] then [] else c :: c2 :: takeDigits tl2
            else
              if takeDigits tl = [] then [] else c :: takeDigits tl
          | [] => []
        else []
      | [] => []
    some (sg.1 ++ ds ++ fr.1 ++ ex)

/-- `std::regex_search` over the suffix of the buffer starting at the
cursor: the leftmost position admitting a match, with the greedy match
there.  Only the matched text is used by the caller (`match.str()`). -/
def numSearchText : List Char → Option (List Char)
  | [] => none
  | c :: tl =>
    match numMatchAt (c :: tl) with
    | some m => some m
    | none => numSearchText tl

/-- The string-scanning loop of the string branch, acting on the suffix
of the buffer just after the opening quote.  Returns the decoded
content and the number of characters consumed including the closing
quote; `none` means the loop ran off the end of the buffer
(unterminated string), in which case control falls through. -/
def stringScan : List Char → List Char → Option (List Char × Nat)
  | [], _ => none
  | c :: rest, acc =>
    if c = '\\' then
      match rest with
      | [] => none
      | c2 :: rest2 =>
        (stringScan rest2 (acc ++ [unescaped_char c2])).map (fun r => (r.1, r.2 + 2))
    else if c = '"' then some (acc, 1)
    else (stringScan rest (acc ++ [c])).map (fun r => (r.1, r.2 + 1))

/-- The whitespace-skipping loop: the first index at or after `i`
holding a non-space character (or the end of the buffer). -/
def skipWs (json : List Char) (i : Nat) : Nat :=
  i + ((json.drop i).takeWhile isspaceC).length

/-- `res[key] = value` on the association-list model of
`std::unordered_map`: overwrite in place if the key is present,
otherwise append. -/
def dictInsert (d : List (List Char × JSONObject)) (k : List Char)
    (v : JSONObject) : List (List Char × JSONObject) :=
  match d with
  | [] => [(k, v)]
  | p :: tl => if p.1 = k then (k, v) :: tl else p :: dictInsert tl k v

mutual

/-- The fueled embedding of `parse(json, start)`.  `none` denotes a run
that exhausts any fuel, i.e. the C++ function never returns.  The body
mirrors the source's sequence of early-return branches: whitespace skip,
empty-buffer `Null`, number branch, string branch, array branch, object
branch, and the final fall-through `{JSONObject(), start}`. -/
def parseF : Nat → List Char → Nat → Option (JSONObject × Nat)
  | 0, _, _ => none
  | fuel + 1, json, start =>
    let s := skipWs json start
    if s < json.length then
      let first := charAt json s
      let numRes : Option (JSONObject × Nat) :=
        if isDigitC first || first = '-' || first = '+' then
          match numSearchText (json.drop s) with
          | some m =>
            match try_parse_int m with
            | some v => some (.int v, s + m.length)
            | none =>
              match try_parse_double m with
              | some q => some (.double q, s + m.length)
              | none => none
          | none => none
        else none
      match numRes with
      | some r => some r
      | none =>
        let strRes : Option (JSONObject × Nat) :=
          if first = '"' then
            match stringScan (json.drop (s + 1)) [] with
            | some r => some (.str r.1, s + 1 + r.2)
            | none => none
          else none
        match strRes with
        | some r => some r
        | none =>
          let arrRes : Option (Option (JSONObject × Nat)) :=
            if first = '[' then arrayLoopF fuel json (s + 1) [] else some none
          match arrRes with
          | none => none
          | some (some r) => some r
          | some none =>
            let objRes : Option (Option (JSONObject × Nat)) :=
              if first = '{' then objLoopF fuel json (s + 1) [] else some none
            match objRes with
            | none => none
            | some (some r) => some r
            | some none => some (.null, s)
    else some (.null, s)

/-- The `while` loop of the array branch.  `some none` means the loop
exited by running past the end of the buffer (control falls through in
the source); `none` means the loop never terminates. -/
def arrayLoopF : Nat → List Char → Nat → List JSONObject →
    Option (Option (JSONObject × Nat))
  | 0, _, _, _ => none
  | fuel + 1, json, i, res =>
    if i < json.length then
      if charAt json i = ']' then some (some (.list res, i + 1))
      else
        match parseF fuel json i with
        | none => none
        | some r =>
          let i2 := if charAt json r.2 = ',' then r.2 + 1 else r.2
          arrayLoopF fuel json i2 (res ++ [r.1])
    else some none

/-- The `while` loop of the object branch; conventions as in
`arrayLoopF`.  A key that is not a `String` is silently skipped, exactly
as in the source. -/
def objLoopF : Nat → List Char → Nat → List (List Char × JSONObject) →
    Option (Option (JSONObject × Nat))
  | 0, _, _, _ => none
  | fuel + 1, json, i, res =>
    if i < json.length then
      if charAt json i = '}' then some (some (.dict res, i + 1))
      else
        match parseF fuel json i with
        | none => none
        | some kr =>
          let i1 := if charAt json kr.2 = ':' then kr.2 + 1 else kr.2
          match parseF fuel json i1 with
          | none => none
          | some vr =>
            let res2 :=
              match kr.1 with
              | .str k => dictInsert res k vr.1
              | _ => res
            let i2 := if charAt json vr.2 = ',' then vr.2 + 1 else vr.2
            objLoopF fuel json i2 res2
    else some none

end

/-- Decimal digit string of a natural number, most significant first,
as the iostream integer inserter emits it. -/
def natToChars (n : Nat) : List Char :=
  if n = 0 then ['0'] else ((Nat.digits 10 n).map digitCh).reverse

/-- `std::cout << intVal`: decimal notation with a leading `-` for
negative values. -/
def printInt (i : Int) : List Char :=
  if i < 0 then '-' :: natToChars i.natAbs else natToChars i.natAbs

/-- Remove trailing `'0'` characters. -/
def stripZeros (l : List Char) : List Char :=
  (l.reverse.dropWhile (fun c => c = '0')).reverse

/-- `std::cout << doubleVal`: default formatting, equivalent to `%g`
with 6 significant digits (fixed notation for decimal exponents in
`[-4, 5]`, scientific otherwise, trailing zeros stripped).  On the
rational model the 6-digit rounding is performed exactly; the real
program formats the nearest binary `double` instead, a divergence only
possible in digits beyond those a `double` reproduces exactly.  No
theorem below mentions this function applied to a `double` value. -/
def printDouble (q : ℚ) : List Char :=
  if q = 0 then ['0']
  else
    let a : ℚ := |q|
    let e : Int :=
      if 1 ≤ a then (Nat.log 10 ⌊a⌋.toNat : Int)
      else
        let k : Nat := (((List.range (Nat.log 10 a.den + 2)).map (· + 1)).find?
            (fun k => 1 ≤ a * 10 ^ k)).getD (Nat.log 10 a.den + 2);
        Int.neg k
    let scaled : Int := round (a * (10 : ℚ) ^ (5 - e))
    let sc2 : Int × Int :=
      if 10 ^ 6 ≤ scaled then (scaled / 10, e + 1) else (scaled, e)
    let ds := natToChars sc2.1.toNat
    let e2 := sc2.2
    let body : List Char :=
      if -4 ≤ e2 ∧ e2 < 6 then
        if 0 ≤ e2 then
          let ipart := ds.take (e2.toNat + 1)
          let fpart := stripZeros (ds.drop (e2.toNat + 1))
          if fpart = [] then ipart else ipart ++ '.' :: fpart
        else
          let zeros := List.replicate (-e2 - 1).toNat '0'
          '0' :: '.' :: stripZeros (zeros ++ ds)
      else
        let fpart := stripZeros (ds.drop 1)
        let mant := if fpart = [] then ds.take 1 else ds.take 1 ++ '.' :: fpart
        let eabs := natToChars e2.natAbs
        let epad := if eabs.length < 2 then '0' :: eabs else eabs
        mant ++ 'e' :: (if e2 < 0 then '-' else '+') :: epad
    if q < 0 then '-' :: body else body

mutual

/-- `JSONObject::print`, collecting the emitted characters.  Scalars
render literally; strings are wrapped in quotes without re-escaping;
containers are comma-space separated.  `Dict` renders in the model's
insertion order (the C++ `unordered_map` order is unspecified). -/
def printJSON : JSONObject → List Char
  | .null => ['n', 'u', 'l', 'l']
  | .bool b => if b then ['t', 'r', 'u', 'e'] else ['f', 'a', 'l', 's', 'e']
  | .int i => printInt i
  | .double q => printDouble q
  | .str s => '"' :: s ++ ['"']
  | .list l => '[' :: printList l ++ [']']
  | .dict d => '{' :: printDict d ++ ['}']

/-- The element loop of the `List` case: `", "` between elements. -/
def printList : List JSONObject → List Char
  | [] => []
  | [x] => printJSON x
  | x :: y :: tl => printJSON x ++ ',' :: ' ' :: printList (y :: tl)

/-- The entry loop of the `Dict` case: `"key": value`, `", "` between
entries. -/
def printDict : List (List Char × JSONObject) → List Char
  | [] => []
  | [p] => '"' :: p.1 ++ '"' :: ':' :: ' ' :: printJSON p.2
  | p :: p2 :: tl =>
    '"' :: p.1 ++ '"' :: ':' :: ' ' :: printJSON p.2 ++ ',' :: ' ' :: printDict (p2 :: tl)

end

/-! ## Basic facts about cursors, suffixes and whitespace -/

theorem drop_cons_facts {json : List Char} {i : Nat} {c : Char} {tl : List Char}
    (h : json.drop i = c :: tl) :
    charAt json i = c ∧ json.drop (i + 1) = tl ∧ i < json.length := by
  have hlt : i < json.length := by
    by_contra hle
    rw [List.drop_eq_nil_iff.mpr (by omega)] at h
    exact List.noConfusion h
  have h0 : json[i]? = some c := by
    have := List.getElem?_drop json i 0
    rw [h] at this
    simpa using this.symm
  refine ⟨?_, ?_, hlt⟩
  · simp [charAt, List.getD_eq_getElem?_getD, h0]
  · have := List.drop_drop 1 i json
    rw [h] at this
    simpa [Nat.add_comm] using this.symm

theorem drop_add {json : List Char} {i : Nat} (k : Nat) {l : List Char}
    (h : json.drop i = l) : json.drop (i + k) = l.drop k := by
  have := List.drop_drop k i json
  rw [h] at this
  simpa [Nat.add_comm] using this.symm

theorem charAt_past {json : List Char} {i : Nat} (h : json.length ≤ i) :
    charAt json i = '\x00' := by
  simp [charAt, List.getD_eq_getElem?_getD, List.getElem?_eq_none h]

theorem skipWs_ge (json : List Char) (i : Nat) : i ≤ skipWs json i := by
  simp [skipWs]

theorem skipWs_nonspace {json : List Char} {i : Nat} {c : Char} {tl : List Char}
    (h : json.drop i = c :: tl) (hc : isspaceC c = false) :
    skipWs json i = i := by
  simp [skipWs, h, List.takeWhile_cons, hc]

theorem skipWs_space {json : List Char} {i : Nat} {c : Char} {tl : List Char}
    (h : json.drop i = c :: tl) (hc : isspaceC c = true) :
    skipWs json i = skipWs json (i + 1) := by
  have h1 := drop_add 1 h
  simp at h1
  simp [skipWs, h, h1, List.takeWhile_cons, hc]
  omega

theorem skipWs_nil {json : List Char} {i : Nat} (h : json.drop i = []) :
    skipWs json i = i := by
  simp [skipWs, h]

theorem skipWs_le_length {json : List Char} (i : Nat) :
    skipWs json i ≤ json.length ∨ json.length ≤ i := by
  rcases Nat.lt_or_ge i json.length with hlt | hge
  · left
    have h1 : ((json.drop i).takeWhile isspaceC).length ≤ (json.drop i).length :=
      (List.takeWhile_prefix _).length_le
    have h2 : (json.drop i).length = json.length - i := List.length_drop i json
    simp only [skipWs]
    omega
  · right; exact hge

/-! ## Concrete behaviour of the parser on the spec's inputs -/

/-- The result carries a `Double`-tagged value. -/
def isDoubleResult (r : Option (JSONObject × Nat)) : Prop :=
  ∃ q n, r = some (JSONObject.double q, n)

/-- A character that makes a matched numeric literal non-integral:
a decimal point or an exponent marker. -/
def isFracExpChar (c : Char) : Bool :=
  c = '.' || c = 'e' || c = 'E'

/-- **C1** (code evaluation): on the spec's three malformed inputs the
code returns silently instead of failing: `[1,2` yields `Null` at offset
0 (not an `UnexpectedEnd` error), `[1,2,]` yields the list `[1, 2]`
(the trailing comma is accepted, no `UnexpectedChar` error), and `01x`
yields `Int 1` at offset 2 (no `NumberFormat` error).  The code has no
error results at all. -/
theorem c1_malformed_inputs_return_silently :
    parseF 30 "[1,2".toList 0 = some (JSONObject.null, 0) ∧
    parseF 30 "[1,2,]".toList 0 = some (JSONObject.list [.int 1, .int 2], 6) ∧
    parseF 30 "01x".toList 0 = some (JSONObject.int 1, 2) :=
  ⟨rfl, rfl, rfl⟩

theorem parseF_x_unrecognized (g : Nat) :
    parseF (g + 1) "[x".toList 1 = some (JSONObject.null, 1) := rfl

theorem arrayLoopF_x_stalls :
    ∀ g res, arrayLoopF g "[x".toList 1 res = none := by
  intro g
  induction g with
  | zero => intro res; rfl
  | succ g ih =>
    intro res
    cases g with
    | zero => rfl
    | succ g' => exact ih (res ++ [JSONObject.null])

/-- **C2** (code evaluation): the array branch loops forever on the
input `[x`: the recursive parse of the unrecognized construct `x`
returns `Null` at the unchanged offset 1, so the loop never makes
progress and no amount of fuel lets `parse` return. -/
theorem c2_array_branch_diverges :
    ∀ fuel, parseF fuel "[x".toList 0 = none := by
  intro fuel
  cases fuel with
  | zero => rfl
  | succ g =>
    have hred : parseF (g + 1) "[x".toList 0 =
        (match arrayLoopF g "[x".toList 1 [] with
         | none => none
         | some (some r) => some r
         | some none => some (JSONObject.null, 0)) := rfl
    rw [hred, arrayLoopF_x_stalls g []]

/-- **C4** (code evaluation): a string opened with `"` but never closed
(`"abc`) makes the string loop run off the buffer and control falls
through to the final fallback, returning `Null` at the unchanged start
offset — there is no `UnterminatedString` error in the code. -/
theorem c4_unterminated_string_silent_null :
    parseF 30 "\"abc".toList 0 = some (JSONObject.null, 0) := rfl

/-- **C5** (code evaluation): a non-`String` key is silently skipped,
not rejected: `{1:2}` parses to the empty `Dict` with no error. -/
theorem c5_nonstring_key_silently_skipped :
    parseF 30 "{1:2}".toList 0 = some (JSONObject.dict [], 5) := rfl

/-- **C6** (code evaluation): parsing is not whitespace-insensitive.
Whitespace before `,`/`]`/`}`/`:` makes the recursive value parse fall
back to `Null` at the delimiter, so `[ 1 , 2 ]` gains two spurious
`Null` elements and `{ "a" : 1 }` maps `"a"` to `Null` instead of
`Int 1`. -/
theorem c6_whitespace_changes_the_tree :
    parseF 30 "[ 1 , 2 ]".toList 0 =
      some (JSONObject.list [.int 1, .null, .int 2, .null], 9) ∧
    parseF 30 "[1,2]".toList 0 = some (JSONObject.list [.int 1, .int 2], 5) ∧
    JSONObject.list [.int 1, .null, .int 2, .null] ≠ JSONObject.list [.int 1, .int 2] ∧
    parseF 30 "\x7b \"a\" : 1 \x7d".toList 0 =
      some (JSONObject.dict [("a".toList, .null)], 11) ∧
    parseF 30 "\x7b\"a\":1\x7d".toList 0 =
      some (JSONObject.dict [("a".toList, .int 1)], 7) ∧
    JSONObject.dict [("a".toList, .null)] ≠ JSONObject.dict [("a".toList, .int 1)] := by
  refine ⟨rfl, rfl, by simp, rfl, rfl, by simp⟩

/-- **C7** (counterexample): on the all-whitespace buffer `"  "` with
start offset 0, `parse` returns `Null` with cursor 2 — the position
after the skipped whitespace — not with the given start offset 0 as the
claim states. -/
theorem c7_counterexample :
    parseF 5 "  ".toList 0 = some (JSONObject.null, 2) ∧ (2 : Nat) ≠ 0 :=
  ⟨rfl, by decide⟩

/-- **C7** (amended): if the buffer is exhausted after skipping leading
whitespace, `parse` returns `Null` with the cursor at the position
reached after the skip (the end of the buffer); the cursor equals the
given start offset only when no whitespace was skipped. -/
theorem c7_exhausted_returns_null (json : List Char) (start fuel : Nat)
    (h : json.length ≤ skipWs json start) :
    parseF (fuel + 1) json start = some (JSONObject.null, skipWs json start) := by
  have hns : ¬ (skipWs json start < json.length) := by omega
  simp [parseF, hns]

/-- Witness for `c7_exhausted_returns_null` at the buffer `"  "`. -/
theorem c7_witness :
    "  ".toList.length ≤ skipWs "  ".toList 0 ∧
    parseF 1 "  ".toList 0 = some (JSONObject.null, skipWs "  ".toList 0) :=
  ⟨by decide, c7_exhausted_returns_null "  ".toList 0 0 (by decide)⟩

/-- **C8**: duplicate keys — the last assignment wins; `{"a":1,"a":2}`
parses to a `Dict` with the single key `"a"` mapped to `Int 2`. -/
theorem c8_duplicate_key_last_wins :
    parseF 30 "\x7b\"a\":1,\"a\":2\x7d".toList 0 =
      some (JSONObject.dict [("a".toList, JSONObject.int 2)], 13) := rfl

/-- **C3** (counterexample): `3000000000` is a valid numeric literal
with no `.` and no exponent whose value exceeds the 32-bit integer
range; the claim demands a `Double`, but the code converts through
`strtol` without an overflow check and truncates to `int`, yielding
`Int (-1294967296)`. -/
theorem c3_counterexample :
    "3000000000".toList.all isDigitC = true ∧
    parseF 5 "3000000000".toList 0 = some (JSONObject.int (-1294967296), 10) ∧
    ¬ isDoubleResult (parseF 5 "3000000000".toList 0) := by
  refine ⟨rfl, rfl, ?_⟩
  rintro ⟨q, n, h⟩
  rw [show parseF 5 "3000000000".toList 0 = some (JSONObject.int (-1294967296), 10)
    from rfl] at h
  simp at h

/-! ## Cursor monotonicity -/

theorem cursor_mono : ∀ fuel,
    (∀ json start v n, parseF fuel json start = some (v, n) → start ≤ n) ∧
    (∀ json i acc v n, arrayLoopF fuel json i acc = some (some (v, n)) → i ≤ n) ∧
    (∀ json i acc v n, objLoopF fuel json i acc = some (some (v, n)) → i ≤ n) := by
  intro fuel
  induction fuel with
  | zero =>
    refine ⟨?_, ?_, ?_⟩
    · intro json start v n h; simp [parseF] at h
    · intro json i acc v n h; simp [arrayLoopF] at h
    · intro json i acc v n h; simp [objLoopF] at h
  | succ fuel ih =>
    obtain ⟨ihP, ihA, ihO⟩ := ih
    refine ⟨?_, ?_, ?_⟩
    · intro json start v n h
      have hs := skipWs_ge json start
      simp only [parseF] at h
      split at h
      case isFalse =>
        injection h with h'
        injection h' with h1 h2
        omega
      case isTrue =>
        split at h
        case h_1 r heq =>
          -- number branch returned
          injection h with h'
          subst h'
          split at heq
          case isTrue =>
            split at heq
            case h_2 => exact absurd heq (by simp)
            case h_1 m hm =>
              split at heq
              case h_1 iv hiv =>
                injection heq with heq'
                rw [Prod.ext_iff] at heq'
                omega
              case h_2 =>
                split at heq
                case h_1 q hq =>
                  injection heq with heq'
                  rw [Prod.ext_iff] at heq'
                  omega
                case h_2 => exact absurd heq (by simp)
          case isFalse => exact absurd heq (by simp)
        case h_2 hne =>
          split at h
          case h_1 r heq =>
            -- string branch returned
            injection h with h'
            subst h'
            split at heq
            case isTrue =>
              split at heq
              case h_1 sc hsc =>
                injection heq with heq'
                rw [Prod.ext_iff] at heq'
                omega
              case h_2 => exact absurd heq (by simp)
            case isFalse => exact absurd heq (by simp)
          case h_2 =>
            -- array / object branches
            split at h
            case h_1 heq => exact absurd h (by simp)
            case h_2 r heq =>
              injection h with h'
              subst h'
              split at heq
              case isTrue =>
                have := ihA json (skipWs json start + 1) [] v n heq
                omega
              case isFalse => exact absurd heq (by simp)
            case h_3 heq =>
              split at h
              case h_1 heq2 => exact absurd h (by simp)
              case h_2 r heq2 =>
                injection h with h'
                subst h'
                split at heq2
                case isTrue =>
                  have := ihO json (skipWs json start + 1) [] v n heq2
                  omega
                case isFalse => exact absurd heq2 (by simp)
              case h_3 heq2 =>
                injection h with h'
                injection h' with h1 h2
                omega
    · intro json i acc v n h
      simp only [arrayLoopF] at h
      split at h
      case isFalse => exact absurd h (by simp)
      case isTrue =>
        split at h
        case isTrue =>
          injection h with h'
          injection h' with h''
          rw [Prod.ext_iff] at h''
          omega
        case isFalse =>
          split at h
          case h_1 => exact absurd h (by simp)
          case h_2 r heq =>
            have h1 := ihP json i r.1 r.2 heq
            have h2 := ihA json _ (acc ++ [r.1]) v n h
            split at h2 <;> omega
    · intro json i acc v n h
      simp only [objLoopF] at h
      split at h
      case isFalse => exact absurd h (by simp)
      case isTrue =>
        split at h
        case isTrue =>
          injection h with h'
          injection h' with h''
          rw [Prod.ext_iff] at h''
          omega
        case isFalse =>
          split at h
          case h_1 => exact absurd h (by simp)
          case h_2 kr hkeq =>
            have h1 := ihP json i kr.1 kr.2 hkeq
            split at h
            case h_1 => exact absurd h (by simp)
            case h_2 vr hveq =>
              have h2 := ihP json _ vr.1 vr.2 hveq
              have h3 := ihO json _ _ v n h
              split at h2 <;> split at h3 <;> omega

/-- **C10**: for every input buffer and start offset not past the end
of the buffer, a cursor returned by `parse` is at least the start
offset — the cursor never moves backwards, on every branch including
the `Null` fallback. -/
theorem c10_cursor_never_backwards (json : List Char) (start fuel : Nat)
    (v : JSONObject) (n : Nat) (hstart : start ≤ json.length)
    (h : parseF fuel json start = some (v, n)) : start ≤ n :=
  (cursor_mono fuel).1 json start v n h

/-- Witness for `c10_cursor_never_backwards` on the buffer `"1"`. -/
theorem c10_witness :
    (0 : Nat) ≤ "1".toList.length ∧
    parseF 5 "1".toList 0 = some (JSONObject.int 1, 1) ∧ (0 : Nat) ≤ 1 :=
  ⟨by decide, rfl, c10_cursor_never_backwards "1".toList 0 5 (JSONObject.int 1) 1
    (by decide) rfl⟩

/-! ## The number lexer on well-formed literals -/

theorem takeDigits_all_append {ds : List Char} (h : ∀ c ∈ ds, isDigitC c = true)
    (r : List Char) : takeDigits (ds ++ r) = ds ++ takeDigits r := by
  induction ds with
  | nil => simp
  | cons c tl ih =>
    have hc : isDigitC c = true := h c (by simp)
    have htl : ∀ c ∈ tl, isDigitC c = true := fun x hx => h x (by simp [hx])
    simp only [takeDigits] at ih ⊢
    simp [List.takeWhile_cons, hc, ih htl]

theorem takeDigits_all {ds : List Char} (h : ∀ c ∈ ds, isDigitC c = true) :
    takeDigits ds = ds := by
  have := takeDigits_all_append h []
  simpa [takeDigits] using this

theorem takeDigits_not_digit {c : Char} {r : List Char} (h : isDigitC c = false) :
    takeDigits (c :: r) = [] := by
  simp [takeDigits, List.takeWhile_cons, h]

/-- A decimal digit is none of the parser's special characters, and is
not whitespace. -/
theorem digit_ne_special {c : Char} (h : isDigitC c = true) :
    c ≠ '+' ∧ c ≠ '-' ∧ c ≠ '.' ∧ c ≠ 'e' ∧ c ≠ 'E' ∧ c ≠ '"' ∧
    isspaceC c = false := by
  refine ⟨?_, ?_, ?_, ?_, ?_, ?_, ?_⟩
  case _ => rintro rfl; exact absurd h (by decide)
  case _ => rintro rfl; exact absurd h (by decide)
  case _ => rintro rfl; exact absurd h (by decide)
  case _ => rintro rfl; exact absurd h (by decide)
  case _ => rintro rfl; exact absurd h (by decide)
  case _ => rintro rfl; exact absurd h (by decide)
  case _ =>
    cases hb : isspaceC c with
    | false => rfl
    | true =>
      have hc : ((((c = ' ' ∨ c = '\t') ∨ c = '\n') ∨ c = '\x0B') ∨ c = '\x0C') ∨ c = '\r' := by
        simpa [isspaceC] using hb
      rcases hc with ((((rfl | rfl) | rfl) | rfl) | rfl) | rfl <;> exact absurd h (by decide)

/-- The remainder after a digit run stops the run: first character (if
any) is not a digit. -/
theorem takeDigits_stop {r : List Char}
    (h : r = [] ∨ ∃ c tl, r = c :: tl ∧ isDigitC c = false) :
    takeDigits r = [] := by
  rcases h with rfl | ⟨c, tl, rfl, hc⟩
  · rfl
  · exact takeDigits_not_digit hc

theorem readSign_digit {c : Char} {tl : List Char} (h : isDigitC c = true) :
    readSign (c :: tl) = (false, c :: tl) := by
  obtain ⟨h1, h2, -⟩ := digit_ne_special h
  simp [readSign, h1, h2]

theorem dropWhile_ws_digit_or_sign {l : List Char} {c : Char} {tl : List Char}
    (hl : l = c :: tl) (h : isDigitC c = true ∨ c = '+' ∨ c = '-') :
    l.dropWhile isspaceC = l := by
  subst hl
  have hns : isspaceC c = false := by
    rcases h with h | rfl | rfl
    · exact (digit_ne_special h).2.2.2.2.2.2
    · decide
    · decide
  simp [List.dropWhile_cons, hns]

theorem readSign_shape {sg r : List Char}
    (hsg : sg = [] ∨ sg = ['+'] ∨ sg = ['-'])
    (hr : ∃ c tl, r = c :: tl ∧ isDigitC c = true) :
    readSign (sg ++ r) = (decide (sg = ['-']), r) := by
  obtain ⟨c, tl, rfl, hc⟩ := hr
  rcases hsg with rfl | rfl | rfl
  · simpa using readSign_digit hc
  · simp [readSign]
  · simp [readSign]

theorem dropWhile_ws_shape {sg r : List Char}
    (hsg : sg = [] ∨ sg = ['+'] ∨ sg = ['-'])
    (hr : ∃ c tl, r = c :: tl ∧ isDigitC c = true) :
    (sg ++ r).dropWhile isspaceC = sg ++ r := by
  obtain ⟨c, tl, rfl, hc⟩ := hr
  rcases hsg with rfl | rfl | rfl
  · exact dropWhile_ws_digit_or_sign rfl (Or.inl hc)
  · exact dropWhile_ws_digit_or_sign rfl (by simp)
  · exact dropWhile_ws_digit_or_sign rfl (by simp)

theorem try_parse_int_signed_digits {sg ds : List Char}
    (hsg : sg = [] ∨ sg = ['+'] ∨ sg = ['-'])
    (hds : ds ≠ []) (hdig : ∀ c ∈ ds, isDigitC c = true) :
    try_parse_int (sg ++ ds) =
      some (wrap32 (max (-(2 ^ 63)) (min (2 ^ 63 - 1)
        (if sg = ['-'] then -(valNat ds : Int) else (valNat ds : Int))))) := by
  obtain ⟨d, dtl, rfl⟩ := List.exists_cons_of_ne_nil hds
  have hdr : ∃ c tl, d :: dtl = c :: tl ∧ isDigitC c = true :=
    ⟨d, dtl, rfl, hdig d (by simp)⟩
  simp only [try_parse_int, dropWhile_ws_shape hsg hdr, readSign_shape hsg hdr,
    takeDigits_all hdig, List.drop_length]
  simp [hds]

theorem try_parse_int_trailing {sg ds rest : List Char}
    (hsg : sg = [] ∨ sg = ['+'] ∨ sg = ['-'])
    (hds : ds ≠ []) (hdig : ∀ c ∈ ds, isDigitC c = true)
    (hrest : rest ≠ []) (hstop : takeDigits rest = []) :
    try_parse_int (sg ++ (ds ++ rest)) = none := by
  obtain ⟨d, dtl, rfl⟩ := List.exists_cons_of_ne_nil hds
  have hdr : ∃ c tl, (d :: dtl) ++ rest = c :: tl ∧ isDigitC c = true :=
    ⟨d, dtl ++ rest, rfl, hdig d (by simp)⟩
  simp only [try_parse_int, dropWhile_ws_shape hsg hdr, readSign_shape hsg hdr,
    takeDigits_all_append hdig, hstop, List.append_nil, List.drop_left]
  simp [hds, hrest]

theorem try_parse_double_success {sg ds fr ex : List Char}
    (hsg : sg = [] ∨ sg = ['+'] ∨ sg = ['-'])
    (hds : ds ≠ []) (hdig : ∀ c ∈ ds, isDigitC c = true)
    (hfr : fr = [] ∨ ∃ fds, fr = '.' :: fds ∧ (∀ c ∈ fds, isDigitC c = true))
    (hex : ex = [] ∨ ∃ e sgn eds, ex = e :: (sgn ++ eds) ∧ (e = 'e' ∨ e = 'E') ∧
      (sgn = [] ∨ sgn = ['+'] ∨ sgn = ['-']) ∧ eds ≠ [] ∧ (∀ c ∈ eds, isDigitC c = true)) :
    ∃ q, try_parse_double (sg ++ (ds ++ (fr ++ ex))) = some q := by
  obtain ⟨d, dtl, hdss⟩ := List.exists_cons_of_ne_nil hds
  have hdr : ∃ c tl, ds ++ (fr ++ ex) = c :: tl ∧ isDigitC c = true := by
    subst hdss
    exact ⟨d, dtl ++ (fr ++ ex), by simp, hdig d (by simp)⟩
  have hexstop : takeDigits ex = [] := by
    rcases hex with rfl | ⟨e, sgn, eds, rfl, he, -, -, -⟩
    · rfl
    · apply takeDigits_not_digit
      rcases he with rfl | rfl <;> decide
  have hstop : takeDigits (fr ++ ex) = [] := by
    rcases hfr with rfl | ⟨fds, rfl, -⟩
    · simpa using hexstop
    · exact takeDigits_not_digit (by decide)
  have hip : takeDigits (ds ++ (fr ++ ex)) = ds := by
    rw [takeDigits_all_append hdig, hstop, List.append_nil]
  simp only [try_parse_double, dropWhile_ws_shape hsg hdr, readSign_shape hsg hdr, hip,
    List.drop_left]
  rcases hfr with rfl | ⟨fds, rfl, hfdig⟩
  · -- no fractional part: l3 = ex
    rcases hex with rfl | ⟨e, sgn, eds, rfl, he, hsgn, heds, hedig⟩
    · simp [hds]
    · obtain ⟨e1, etl, hedss⟩ := List.exists_cons_of_ne_nil heds
      have hedr : ∃ c tl, eds = c :: tl ∧ isDigitC c = true := by
        subst hedss
        exact ⟨e1, etl, rfl, hedig e1 (by simp)⟩
      have hene : e ≠ '.' := by rcases he with rfl | rfl <;> decide
      have hored : e = 'e' ∨ e = 'E' := he
      simp only [List.nil_append, List.cons_append, hene, if_false, ite_false,
        reduceIte, hored, if_true]
      simp [hds, hene, hored, readSign_shape hsgn hedr, takeDigits_all hedig, heds,
        List.drop_length]
  · -- fractional part present
    have hfds2 : takeDigits (fds ++ ex) = fds := by
      rw [takeDigits_all_append hfdig, hexstop, List.append_nil]
    rcases hex with rfl | ⟨e, sgn, eds, rfl, he, hsgn, heds, hedig⟩
    · simp [hds, hfds2, takeDigits_all hfdig, List.drop_length]
    · obtain ⟨e1, etl, hedss⟩ := List.exists_cons_of_ne_nil heds
      have hedr : ∃ c tl, eds = c :: tl ∧ isDigitC c = true := by
        subst hedss
        exact ⟨e1, etl, rfl, hedig e1 (by simp)⟩
      have hored : e = 'e' ∨ e = 'E' := he
      simp [hds, hfds2, hored, readSign_shape hsgn hedr, takeDigits_all hedig, heds,
        List.drop_length, List.drop_left]

/-- A non-extending remainder: its first character cannot lengthen the
greedy number match. -/
def restStops (rest : List Char) : Prop :=
  rest = [] ∨ ∃ c tl, rest = c :: tl ∧ isDigitC c = false ∧ c ≠ '.' ∧ c ≠ 'e' ∧ c ≠ 'E'

theorem restStops_takeDigits {rest : List Char} (h : restStops rest) :
    takeDigits rest = [] := by
  rcases h with rfl | ⟨c, tl, rfl, hc, -, -, -⟩
  · rfl
  · exact takeDigits_not_digit hc

/-- The greedy regex match at a well-formed literal followed by a
non-extending remainder is exactly the literal. -/
theorem numMatchAt_literal {sg ds fr ex rest : List Char}
    (hsg : sg = [] ∨ sg = ['+'] ∨ sg = ['-'])
    (hds : ds ≠ []) (hdig : ∀ c ∈ ds, isDigitC c = true)
    (hfr : fr = [] ∨ ∃ fds, fr = '.' :: fds ∧ (∀ c ∈ fds, isDigitC c = true))
    (hex : ex = [] ∨ ∃ e sgn eds, ex = e :: (sgn ++ eds) ∧ (e = 'e' ∨ e = 'E') ∧
      (sgn = [] ∨ sgn = ['+'] ∨ sgn = ['-']) ∧ eds ≠ [] ∧ (∀ c ∈ eds, isDigitC c = true))
    (hrest : restStops rest) :
    numMatchAt (sg ++ (ds ++ (fr ++ (ex ++ rest)))) = some (sg ++ (ds ++ (fr ++ ex))) := by
  obtain ⟨d, dtl, hdss⟩ := List.exists_cons_of_ne_nil hds
  have hd : isDigitC d = true := hdig d (by rw [hdss]; simp)
  -- the tail after the digit run never starts with a digit
  have hexrest : takeDigits (ex ++ rest) = [] := by
    rcases hex with rfl | ⟨e, sgn, eds, rfl, he, -, -, -⟩
    · simpa using restStops_takeDigits hrest
    · apply takeDigits_not_digit
      rcases he with rfl | rfl <;> decide
  have hstop3 : takeDigits (fr ++ (ex ++ rest)) = [] := by
    rcases hfr with rfl | ⟨fds, rfl, -⟩
    · simpa using hexrest
    · exact takeDigits_not_digit (by decide)
  have htd : takeDigits (ds ++ (fr ++ (ex ++ rest))) = ds := by
    rw [takeDigits_all_append hdig, hstop3, List.append_nil]
  -- the fractional component
  have hfrpart :
      (match (fr ++ (ex ++ rest) : List Char) with
        | c :: tl =>
          if c = '.' then (c :: takeDigits tl, tl.drop (takeDigits tl).length)
          else (([] : List Char), fr ++ (ex ++ rest))
        | [] => (([] : List Char), fr ++ (ex ++ rest))) = (fr, ex ++ rest) := by
    rcases hfr with rfl | ⟨fds, rfl, hfdig⟩
    · rcases hex with rfl | ⟨e, sgn, eds, rfl, he, -, -, -⟩
      · rcases hrest with rfl | ⟨c, tl, rfl, -, hdot, -, -⟩
        · rfl
        · simp [hdot]
      · have : e ≠ '.' := by rcases he with rfl | rfl <;> decide
        simp [this]
    · have hfds : takeDigits (fds ++ (ex ++ rest)) = fds := by
        rw [takeDigits_all_append hfdig, hexrest, List.append_nil]
      simp [hfds, List.drop_left]
  -- the exponent component
  have hexpart :
      (match (ex ++ rest : List Char) with
        | c :: tl =>
          if c = 'e' ∨ c = 'E' then
            match tl with
            | c2 :: tl2 =>
              if c2 = '+' ∨ c2 = '-' then
                if takeDigits tl2 = [] then [] else c :: c2 :: takeDigits tl2
              else
                if takeDigits tl = [] then [] else c :: takeDigits tl
            | [] => []
          else []
        | [] => ([] : List Char)) = ex := by
    rcases hex with rfl | ⟨e, sgn, eds, rfl, he, hsgn, heds, hedig⟩
    · rcases hrest with rfl | ⟨c, tl, rfl, -, -, hce, hcE⟩
      · rfl
      · simp [hce, hcE]
    · obtain ⟨e1, etl, hedss⟩ := List.exists_cons_of_ne_nil heds
      have he1 : isDigitC e1 = true := hedig e1 (by rw [hedss]; simp)
      have heds2 : takeDigits (eds ++ rest) = eds := by
        rw [takeDigits_all_append hedig, restStops_takeDigits hrest, List.append_nil]
      have hored : e = 'e' ∨ e = 'E' := he
      rcases hsgn with rfl | rfl | rfl
      · subst hedss
        obtain ⟨hne1, hne2, -⟩ := digit_ne_special he1
        simp only [List.cons_append] at heds2
        simp only [List.nil_append, List.cons_append]
        simp [hored, hne1, hne2, heds2]
      · subst hedss
        simp only [List.cons_append] at heds2
        simp only [List.nil_append, List.cons_append]
        simp [hored, heds2]
      · subst hedss
        simp only [List.cons_append] at heds2
        simp only [List.nil_append, List.cons_append]
        simp [hored, heds2]
  -- assemble
  rcases hsg with rfl | rfl | rfl
  · subst hdss
    obtain ⟨hne1, hne2, -⟩ := digit_ne_special hd
    simp only [List.nil_append, List.cons_append] at htd hfrpart hexpart ⊢
    have hdl : (d :: (dtl ++ (fr ++ (ex ++ rest)))).drop (d :: dtl).length
        = fr ++ (ex ++ rest) := by
      simpa using List.drop_left (d :: dtl) (fr ++ (ex ++ rest))
    simp only [numMatchAt, hne1, hne2, or_self, if_false]
    rw [htd, hdl]
    simp only [hfrpart, hexpart, reduceIte]
    simp
  · simp only [List.cons_append, List.nil_append] at htd hfrpart hexpart ⊢
    simp only [numMatchAt, true_or, or_true, if_true, reduceIte]
    rw [htd]
    simp only [hds, List.drop_left, hfrpart, hexpart, reduceIte]
    simp
  · simp only [List.cons_append, List.nil_append] at htd hfrpart hexpart ⊢
    simp only [numMatchAt, true_or, or_true, if_true, reduceIte]
    rw [htd]
    simp only [hds, List.drop_left, hfrpart, hexpart, reduceIte]
    simp

/-- The number branch of `parse`, integer case: a successful `strtol`
conversion of the matched text yields `Int` and advances the cursor by
the matched length. -/
theorem parse_number_branch_int {json : List Char} {start fuel s : Nat}
    {m : List Char} {v : Int}
    (h1 : skipWs json start = s) (hlt : s < json.length)
    (hguard : (isDigitC (charAt json s) || charAt json s = '-' ||
      charAt json s = '+') = true)
    (h2 : numSearchText (json.drop s) = some m)
    (hint : try_parse_int m = some v) :
    parseF (fuel + 1) json start = some (JSONObject.int v, s + m.length) := by
  simp only [parseF]
  rw [h1, if_pos hlt, if_pos hguard, h2]
  simp only [hint]

/-- The number branch of `parse`, floating case: when `strtol` rejects
the matched text and `strtod` accepts it, the result is `Double` and
the cursor advances by the matched length. -/
theorem parse_number_branch_double {json : List Char} {start fuel s : Nat}
    {m : List Char} {q : ℚ}
    (h1 : skipWs json start = s) (hlt : s < json.length)
    (hguard : (isDigitC (charAt json s) || charAt json s = '-' ||
      charAt json s = '+') = true)
    (h2 : numSearchText (json.drop s) = some m)
    (hint : try_parse_int m = none) (hdbl : try_parse_double m = some q) :
    parseF (fuel + 1) json start = some (JSONObject.double q, s + m.length) := by
  simp only [parseF]
  rw [h1, if_pos hlt, if_pos hguard, h2]
  simp only [hint, hdbl]

/-- The full behaviour of the number branch on a well-formed literal at
the cursor. -/
theorem parse_number_literal_spec (json : List Char) (start fuel s : Nat)
    (sg ds fr ex rest : List Char)
    (h1 : skipWs json start = s)
    (h2 : json.drop s = sg ++ (ds ++ (fr ++ (ex ++ rest))))
    (hsg : sg = [] ∨ sg = ['+'] ∨ sg = ['-'])
    (hds : ds ≠ []) (hdig : ∀ c ∈ ds, isDigitC c = true)
    (hfr : fr = [] ∨ ∃ fds, fr = '.' :: fds ∧ (∀ c ∈ fds, isDigitC c = true))
    (hex : ex = [] ∨ ∃ e sgn eds, ex = e :: (sgn ++ eds) ∧ (e = 'e' ∨ e = 'E') ∧
      (sgn = [] ∨ sgn = ['+'] ∨ sgn = ['-']) ∧ eds ≠ [] ∧ (∀ c ∈ eds, isDigitC c = true))
    (hrest : restStops rest) :
    (fr = [] ∧ ex = [] →
      parseF (fuel + 1) json start =
        some (JSONObject.int (wrap32 (max (-(2 ^ 63)) (min (2 ^ 63 - 1)
          (if sg = ['-'] then -(valNat ds : Int) else (valNat ds : Int))))),
          s + (sg ++ ds).length)) ∧
    (fr ≠ [] ∨ ex ≠ [] →
      ∃ q, parseF (fuel + 1) json start =
        some (JSONObject.double q, s + (sg ++ (ds ++ (fr ++ ex))).length)) := by
  have hmatch := numMatchAt_literal hsg hds hdig hfr hex hrest
  have hne0 : (sg ++ (ds ++ (fr ++ (ex ++ rest)))) ≠ [] := by
    simp [List.append_eq_nil, hds]
  obtain ⟨c0, tl0, hc0⟩ := List.exists_cons_of_ne_nil hne0
  obtain ⟨hchar, -, hlt⟩ := drop_cons_facts (h2.trans hc0)
  have hguard : (isDigitC (charAt json s) || charAt json s = '-' ||
      charAt json s = '+') = true := by
    rw [hchar]
    rcases hsg with rfl | rfl | rfl
    · obtain ⟨d, dtl, rfl⟩ := List.exists_cons_of_ne_nil hds
      simp only [List.nil_append, List.cons_append, List.cons.injEq] at hc0
      rw [← hc0.1]
      simp [hdig d (by simp)]
    · simp only [List.cons_append, List.nil_append, List.cons.injEq] at hc0
      rw [← hc0.1]
      simp
    · simp only [List.cons_append, List.nil_append, List.cons.injEq] at hc0
      rw [← hc0.1]
      simp
  have hsearch : numSearchText (json.drop s) = some (sg ++ (ds ++ (fr ++ ex))) := by
    rw [h2, hc0]
    simp only [numSearchText]
    rw [← hc0, hmatch]
  constructor
  · rintro ⟨rfl, rfl⟩
    have hti : try_parse_int (sg ++ ds) =
        some (wrap32 (max (-(2 ^ 63)) (min (2 ^ 63 - 1)
          (if sg = ['-'] then -(valNat ds : Int) else (valNat ds : Int))))) :=
      try_parse_int_signed_digits hsg hds hdig
    have hsearch' : numSearchText (json.drop s) = some (sg ++ ds) := by
      simpa using hsearch
    exact parse_number_branch_int h1 hlt hguard hsearch' hti
  · intro hne
    have hfe_ne : fr ++ ex ≠ [] := by
      rcases hne with h | h <;> simp [List.append_eq_nil, h]
    have hfe_stop : takeDigits (fr ++ ex) = [] := by
      rcases hfr with rfl | ⟨fds, rfl, -⟩
      · rcases hex with rfl | ⟨e, sgn, eds, rfl, he, -, -, -⟩
        · simp at hfe_ne
        · apply takeDigits_not_digit
          rcases he with rfl | rfl <;> decide
      · exact takeDigits_not_digit (by decide)
    have hti : try_parse_int (sg ++ (ds ++ (fr ++ ex))) = none :=
      try_parse_int_trailing hsg hds hdig hfe_ne hfe_stop
    obtain ⟨q, hq⟩ := try_parse_double_success hsg hds hdig hfr hex
    exact ⟨q, parse_number_branch_double h1 hlt hguard hsearch hti hq⟩

/-- **C3** (amended): for every valid numeric literal at the cursor
(an optional sign, digits, an optional fraction, an optional exponent,
followed by a non-extending remainder), `parse` attempts integer
conversion of the full matched text first.  A literal with no `.` and
no exponent yields `Int` with the `strtol` value saturated to `long`
range and truncated to 32-bit `int` width — there is no overflow check,
so out-of-range literals still yield `Int` with a wrapped value.  Every
valid literal containing `.` or an exponent yields `Double`.  In both
cases the cursor advances by exactly the length of the matched literal
text. -/
theorem c3_number_literal_tag (json : List Char) (start fuel s : Nat)
    (sg ds fr ex rest : List Char)
    (h1 : skipWs json start = s)
    (h2 : json.drop s = sg ++ (ds ++ (fr ++ (ex ++ rest))))
    (hsg : sg = [] ∨ sg = ['+'] ∨ sg = ['-'])
    (hds : ds ≠ []) (hdig : ∀ c ∈ ds, isDigitC c = true)
    (hfr : fr = [] ∨ ∃ fds, fr = '.' :: fds ∧ (∀ c ∈ fds, isDigitC c = true))
    (hex : ex = [] ∨ ∃ e sgn eds, ex = e :: (sgn ++ eds) ∧ (e = 'e' ∨ e = 'E') ∧
      (sgn = [] ∨ sgn = ['+'] ∨ sgn = ['-']) ∧ eds ≠ [] ∧ (∀ c ∈ eds, isDigitC c = true))
    (hrest : restStops rest) :
    (fr = [] ∧ ex = [] →
      parseF (fuel + 1) json start =
        some (JSONObject.int (wrap32 (max (-(2 ^ 63)) (min (2 ^ 63 - 1)
          (if sg = ['-'] then -(valNat ds : Int) else (valNat ds : Int))))),
          s + (sg ++ ds).length)) ∧
    (fr ≠ [] ∨ ex ≠ [] →
      ∃ q, parseF (fuel + 1) json start =
        some (JSONObject.double q, s + (sg ++ (ds ++ (fr ++ ex))).length)) :=
  parse_number_literal_spec json start fuel s sg ds fr ex rest h1 h2 hsg hds hdig
    hfr hex hrest

/-- Witness for `c3_number_literal_tag` on the buffer `"-12.5,"`:
the literal `-12.5` (sign `-`, digits `12`, fraction `.5`, no
exponent, remainder `,`) parses to a `Double` with the cursor advanced
by 5; and on the buffer `"42"` the literal `42` parses to `Int 42`. -/
theorem c3_witness :
    (skipWs "-12.5,".toList 0 = 0 ∧
     "-12.5,".toList.drop 0 =
       ['-'] ++ (['1', '2'] ++ (['.', '5'] ++ ([] ++ [','])))) ∧
    (∃ q, parseF 3 "-12.5,".toList 0 = some (JSONObject.double q, 0 + 5)) ∧
    parseF 3 "42".toList 0 =
      some (JSONObject.int (wrap32 (max (-(2 ^ 63)) (min (2 ^ 63 - 1)
        (valNat ['4', '2'] : Int)))), 0 + 2) := by
  refine ⟨⟨rfl, rfl⟩, ?_, ?_⟩
  · exact (c3_number_literal_tag "-12.5,".toList 0 2 0 ['-'] ['1', '2'] ['.', '5'] []
      [','] rfl rfl (by simp) (by simp) (by decide)
      (Or.inr ⟨['5'], rfl, by decide⟩) (Or.inl rfl)
      (Or.inr ⟨',', [], rfl, by decide, by decide, by decide, by decide⟩)).2
      (Or.inl (by simp))
  · have h := (c3_number_literal_tag "42".toList 0 2 0 [] ['4', '2'] [] [] []
      rfl rfl (Or.inl rfl) (by simp) (by decide) (Or.inl rfl) (Or.inl rfl)
      (Or.inl rfl)).1 ⟨rfl, rfl⟩
    simpa using h

/-! ## Round-trip machinery: printed text parses back -/

/-- What may legally follow a printed value inside a rendered tree: the
end of the buffer or a closing/separating delimiter. -/
def goodFollow (rest : List Char) : Prop :=
  rest = [] ∨ ∃ c tl, rest = c :: tl ∧ (c = ',' ∨ c = ']' ∨ c = '}')

theorem goodFollow_restStops {rest : List Char} (h : goodFollow rest) :
    restStops rest := by
  rcases h with rfl | ⟨c, tl, rfl, hc⟩
  · exact Or.inl rfl
  · refine Or.inr ⟨c, tl, rfl, ?_, ?_, ?_, ?_⟩ <;>
      rcases hc with rfl | rfl | rfl <;> decide

theorem digit_ne_delims {c : Char} (h : isDigitC c = true) :
    c ≠ ']' ∧ c ≠ '}' ∧ c ≠ ',' ∧ c ≠ ':' ∧ c ≠ '[' ∧ c ≠ '{' ∧ c ≠ '\\' := by
  refine ⟨?_, ?_, ?_, ?_, ?_, ?_, ?_⟩ <;>
    exact fun hc => absurd h (by rw [hc]; decide)

theorem isDigitC_digitCh (d : Nat) : isDigitC (digitCh d) = true := by
  rcases d with _ | _ | _ | _ | _ | _ | _ | _ | _ | d <;> rfl

theorem digitVal_digitCh : ∀ d : Nat, d < 10 → digitVal (digitCh d) = d := by decide

theorem natToChars_ne_nil (n : Nat) : natToChars n ≠ [] := by
  unfold natToChars
  split
  · simp
  · have : Nat.digits 10 n ≠ [] := Nat.digits_ne_nil_iff_ne_zero.mpr (by omega)
    simp [this]

theorem natToChars_digits (n : Nat) : ∀ c ∈ natToChars n, isDigitC c = true := by
  unfold natToChars
  split
  · intro c hc
    simp at hc
    subst hc
    decide
  · intro c hc
    simp only [List.mem_reverse, List.mem_map] at hc
    obtain ⟨d, -, rfl⟩ := hc
    exact isDigitC_digitCh d

theorem foldr_digitCh_val (L : List Nat) (h : ∀ d ∈ L, d < 10) :
    List.foldr (fun c a => a * 10 + digitVal c) 0 (L.map digitCh) =
    List.foldr (fun d a => a * 10 + d) 0 L := by
  induction L with
  | nil => rfl
  | cons d tl ih =>
    simp only [List.map_cons, List.foldr_cons]
    rw [ih (fun x hx => h x (by simp [hx])), digitVal_digitCh d (h d (by simp))]

theorem foldr_ofDigits (L : List Nat) :
    List.foldr (fun d a => a * 10 + d) 0 L = Nat.ofDigits 10 L := by
  induction L with
  | nil => simp [Nat.ofDigits]
  | cons d tl ih =>
    rw [List.foldr_cons, ih, Nat.ofDigits_cons]
    omega

theorem valNat_natToChars (n : Nat) : valNat (natToChars n) = n := by
  unfold natToChars valNat
  split
  · subst n; decide
  · rw [List.foldl_reverse]
    have h1 : ∀ d ∈ Nat.digits 10 n, d < 10 :=
      fun d hd => Nat.digits_lt_base (by norm_num) hd
    calc List.foldr (fun x y => y * 10 + digitVal x) 0 ((Nat.digits 10 n).map digitCh)
        = List.foldr (fun d a => a * 10 + d) 0 (Nat.digits 10 n) :=
          foldr_digitCh_val (Nat.digits 10 n) h1
      _ = Nat.ofDigits 10 (Nat.digits 10 n) := foldr_ofDigits _
      _ = n := Nat.ofDigits_digits 10 n

theorem wrap32_small {v : Int} (h1 : -(2 ^ 31) ≤ v) (h2 : v < 2 ^ 31) :
    wrap32 v = v := by
  unfold wrap32
  have h3 : (0 : Int) ≤ v + 2 ^ 31 := by omega
  have h4 : v + 2 ^ 31 < 2 ^ 32 := by omega
  rw [Int.emod_eq_of_lt h3 h4]
  omega

theorem printInt_eq (i : Int) :
    printInt i = (if i < 0 then ['-'] else []) ++ natToChars i.natAbs := by
  unfold printInt
  split <;> simp

/-- Integer round-trip: the printed form of an in-range `int` parses
back to the same value, advancing by its printed length. -/
theorem parse_int_print {json : List Char} {start fuel s : Nat} {i : Int}
    {rest : List Char}
    (h1 : skipWs json start = s)
    (h2 : json.drop s = printInt i ++ rest)
    (hlo : -(2 ^ 31) ≤ i) (hhi : i < 2 ^ 31)
    (hrest : restStops rest) :
    parseF (fuel + 1) json start = some (JSONObject.int i, s + (printInt i).length) := by
  have h2' : json.drop s =
      (if i < 0 then ['-'] else []) ++ (natToChars i.natAbs ++ ([] ++ ([] ++ rest))) := by
    rw [h2, printInt_eq]
    simp
  have hsg : (if i < 0 then ['-'] else ([] : List Char)) = [] ∨
      (if i < 0 then ['-'] else ([] : List Char)) = ['+'] ∨
      (if i < 0 then ['-'] else ([] : List Char)) = ['-'] := by
    split
    · exact Or.inr (Or.inr rfl)
    · exact Or.inl rfl
  have key := (parse_number_literal_spec json start fuel s _ _ [] [] rest h1 h2' hsg
    (natToChars_ne_nil _) (natToChars_digits _) (Or.inl rfl) (Or.inl rfl) hrest).1
    ⟨rfl, rfl⟩
  have habs : (if (if i < 0 then ['-'] else ([] : List Char)) = ['-'] then
      -(valNat (natToChars i.natAbs) : Int) else (valNat (natToChars i.natAbs) : Int)) = i := by
    rw [valNat_natToChars]
    by_cases hneg : i < 0
    · rw [if_pos hneg, if_pos rfl]
      omega
    · rw [if_neg hneg, if_neg (by simp)]
      omega
  rw [habs] at key
  have hclamp : max (-(2 ^ 63)) (min (2 ^ 63 - 1) i) = i := by
    have e1 : (2 : Int) ^ 63 = 9223372036854775808 := by norm_num
    have e2 : (2 : Int) ^ 31 = 2147483648 := by norm_num
    rw [e1]
    rw [e1, e2] at *
    omega
  rw [hclamp, wrap32_small hlo hhi] at key
  rw [printInt_eq]
  simpa using key

/-- The string branch of `parse`: a successful scan yields the decoded
string with the cursor just past the closing quote. -/
theorem parse_string_branch {json : List Char} {start fuel s : Nat}
    {cs : List Char} {k : Nat}
    (h1 : skipWs json start = s) (hlt : s < json.length)
    (hq : charAt json s = '"')
    (hscan : stringScan (json.drop (s + 1)) [] = some (cs, k)) :
    parseF (fuel + 1) json start = some (JSONObject.str cs, s + 1 + k) := by
  simp only [parseF]
  rw [h1, if_pos hlt, hq]
  rw [if_neg (by decide)]
  rw [if_pos rfl, hscan]

/-- Characters of a string value that round-trips: neither a quote nor
a backslash. -/
def safeStr (s : List Char) : Prop :=
  ∀ c ∈ s, c ≠ '"' ∧ c ≠ '\\'

theorem stringScan_safe (rest : List Char) :
    ∀ (s0 : List Char), safeStr s0 → ∀ acc,
      stringScan (s0 ++ '"' :: rest) acc = some (acc ++ s0, s0.length + 1) := by
  intro s0
  induction s0 with
  | nil =>
    intro _ acc
    rw [List.nil_append, stringScan.eq_def]
    simp
  | cons c tl ih =>
    intro h acc
    obtain ⟨hq, hb⟩ := h c (by simp)
    have htl : safeStr tl := fun x hx => h x (by simp [hx])
    rw [List.cons_append, stringScan.eq_def]
    simp only [hb, hq, if_false]
    rw [ih htl (acc ++ [c])]
    simp [List.append_assoc]

/-- Trees whose printed form parses back: in-range integers, strings
(and keys) without characters that would need re-escaping, and
containers of such trees with pairwise-distinct keys.  `Null`, `Bool`
and `Double` are excluded: their printed forms (`null`, `true`,
`false`, and numerals that may re-parse as integers) do not
round-trip. -/
inductive printSafe : JSONObject → Prop where
  | int (i : Int) (h1 : -(2 ^ 31) ≤ i) (h2 : i < 2 ^ 31) : printSafe (.int i)
  | str (s : List Char) (h : safeStr s) : printSafe (.str s)
  | list (l : List JSONObject) (h : ∀ x ∈ l, printSafe x) : printSafe (.list l)
  | dict (d : List (List Char × JSONObject))
      (hk : ∀ p ∈ d, safeStr p.1) (hv : ∀ p ∈ d, printSafe p.2)
      (hnd : (d.map Prod.fst).Nodup) : printSafe (.dict d)

/-- The printed text of a value, followed by a closing delimiter or the
end of the buffer, parses back to that value with the cursor advanced
by the printed length (for every sufficient fuel). -/
def ParsesPrint (x : JSONObject) : Prop :=
  ∀ (json : List Char) (start s : Nat) (rest : List Char),
    skipWs json start = s →
    json.drop s = printJSON x ++ rest → goodFollow rest →
    ∃ N, ∀ f, N ≤ f → parseF f json start = some (x, s + (printJSON x).length)

/-- A safe value's printed form starts with a non-space character that
is not a closing delimiter or separator. -/
theorem printJSON_head {V : JSONObject} (hs : printSafe V) :
    ∃ c tl, printJSON V = c :: tl ∧ isspaceC c = false ∧
      c ≠ ']' ∧ c ≠ '}' ∧ c ≠ ',' ∧ c ≠ ':' := by
  cases hs with
  | int i h1 h2 =>
    by_cases hneg : i < 0
    · refine ⟨'-', natToChars i.natAbs, ?_, by decide, by decide, by decide,
        by decide, by decide⟩
      simp [printJSON, printInt_eq, hneg]
    · obtain ⟨d, dtl, hd⟩ := List.exists_cons_of_ne_nil (natToChars_ne_nil i.natAbs)
      have hdig : isDigitC d = true := natToChars_digits _ d (by rw [hd]; simp)
      refine ⟨d, dtl, ?_, (digit_ne_special hdig).2.2.2.2.2.2,
        (digit_ne_delims hdig).1, (digit_ne_delims hdig).2.1,
        (digit_ne_delims hdig).2.2.1, (digit_ne_delims hdig).2.2.2.1⟩
      simp [printJSON, printInt_eq, hneg, hd]
  | str s h =>
    exact ⟨'"', s ++ ['"'], by simp [printJSON], by decide, by decide, by decide,
      by decide, by decide⟩
  | list l h =>
    exact ⟨'[', printList l ++ [']'], by simp [printJSON], by decide, by decide,
      by decide, by decide, by decide⟩
  | dict d hk hv hnd =>
    exact ⟨'{', printDict d ++ ['}'], by simp [printJSON], by decide, by decide,
      by decide, by decide, by decide⟩

/-- String round-trip at the parse level. -/
theorem parse_str_print {json : List Char} {start fuel s : Nat} {s0 rest : List Char}
    (h1 : skipWs json start = s)
    (h2 : json.drop s = printJSON (.str s0) ++ rest)
    (hsafe : safeStr s0) :
    parseF (fuel + 1) json start =
      some (JSONObject.str s0, s + (printJSON (.str s0)).length) := by
  have hp : printJSON (JSONObject.str s0) = '"' :: (s0 ++ ['"']) := by
    simp [printJSON]
  rw [hp] at h2
  simp only [List.cons_append] at h2
  obtain ⟨hchar, hdrop1, hlt⟩ := drop_cons_facts h2
  have hdrop1' : json.drop (s + 1) = s0 ++ '"' :: rest := by
    rw [hdrop1]
    simp
  have hscan : stringScan (json.drop (s + 1)) [] = some (s0, s0.length + 1) := by
    rw [hdrop1']
    simpa using stringScan_safe rest s0 hsafe []
  have hres := @parse_string_branch json start fuel s s0 (s0.length + 1)
    h1 hlt hchar hscan
  rw [hres, hp]
  simp
  omega

theorem arrayLoopF_print {json : List Char} :
    ∀ (l : List JSONObject), (∀ x ∈ l, ParsesPrint x ∧ printSafe x) →
    ∀ (i : Nat) (acc : List JSONObject) (sp rest' : List Char),
      (sp = [] ∨ (sp = [' '] ∧ l ≠ [])) →
      json.drop i = sp ++ (printList l ++ (']' :: rest')) →
      ∃ N, ∀ f, N ≤ f → arrayLoopF f json i acc =
        some (some (JSONObject.list (acc ++ l),
          i + sp.length + (printList l).length + 1)) := by
  intro l
  induction l with
  | nil =>
    intro _ i acc sp rest' hsp hdrop
    rcases hsp with rfl | ⟨-, hne⟩
    swap
    · exact absurd rfl hne
    simp only [printList, List.nil_append] at hdrop
    obtain ⟨hc, -, hlt⟩ := drop_cons_facts hdrop
    refine ⟨1, fun f hf => ?_⟩
    obtain ⟨f', rfl⟩ : ∃ f', f = f' + 1 := ⟨f - 1, by omega⟩
    simp only [arrayLoopF]
    rw [if_pos hlt, hc]
    simp [printList]
  | cons x xs ih =>
    intro helem i acc sp rest' hsp hdrop
    obtain ⟨hPx, hSx⟩ := helem x (by simp)
    have hxs : ∀ y ∈ xs, ParsesPrint y ∧ printSafe y :=
      fun y hy => helem y (by simp [hy])
    obtain ⟨c0, tl0, hhead, hws0, hcb, -, -, -⟩ := printJSON_head hSx
    have hPL : ∃ t, printList (x :: xs) = printJSON x ++ t := by
      cases xs with
      | nil => exact ⟨[], by simp [printList]⟩
      | cons y ys => exact ⟨',' :: ' ' :: printList (y :: ys), by simp [printList]⟩
    obtain ⟨t, hPLt⟩ := hPL
    suffices H : ∀ s0, skipWs json i = s0 →
        json.drop s0 = printList (x :: xs) ++ (']' :: rest') →
        charAt json i ≠ ']' → i < json.length →
        ∃ N, ∀ f, N ≤ f → arrayLoopF f json i acc =
          some (some (JSONObject.list (acc ++ (x :: xs)),
            s0 + (printList (x :: xs)).length + 1)) by
      rcases hsp with rfl | ⟨rfl, -⟩
      · simp only [List.nil_append] at hdrop
        have hdropc : json.drop i = c0 :: (tl0 ++ (t ++ (']' :: rest'))) := by
          rw [hdrop, hPLt, hhead]
          simp
        obtain ⟨hchari, -, hlti⟩ := drop_cons_facts hdropc
        have h := H i (skipWs_nonspace hdropc hws0) hdrop
          (by rw [hchari]; exact hcb) hlti
        simpa using h
      · have hdropc1 : json.drop i = ' ' :: (printList (x :: xs) ++ (']' :: rest')) := by
          simpa using hdrop
        obtain ⟨hchari, hd1, hlti⟩ := drop_cons_facts hdropc1
        have hws : skipWs json i = i + 1 := by
          rw [skipWs_space hdropc1 (by decide)]
          have hdropc2 : json.drop (i + 1) = c0 :: (tl0 ++ (t ++ (']' :: rest'))) := by
            rw [hd1, hPLt, hhead]
            simp
          exact skipWs_nonspace hdropc2 hws0
        have h := H (i + 1) hws hd1 (by rw [hchari]; decide) hlti
        have harith : i + 1 + (printList (x :: xs)).length + 1 =
            i + [' '].length + (printList (x :: xs)).length + 1 := by simp
        rw [harith] at h
        exact h
    intro s0 hws hdropS hci hlti
    cases xs with
    | nil =>
      simp only [printList] at hdropS ⊢
      obtain ⟨Nx, hNx⟩ := hPx json i s0 (']' :: rest') hws hdropS
        (Or.inr ⟨']', rest', rfl, Or.inr (Or.inl rfl)⟩)
      have hdropnext : json.drop (s0 + (printJSON x).length) = ']' :: rest' := by
        have h := drop_add (printJSON x).length hdropS
        rwa [List.drop_left] at h
      obtain ⟨hcharN, -, hltN⟩ := drop_cons_facts hdropnext
      refine ⟨Nx + 2, fun f hf => ?_⟩
      obtain ⟨f', rfl⟩ : ∃ f', f = f' + 1 := ⟨f - 1, by omega⟩
      simp only [arrayLoopF]
      rw [if_pos hlti, if_neg hci, hNx f' (by omega)]
      simp only [hcharN, reduceIte]
      rw [if_neg (show ¬((']' : Char) = ',') from by decide)]
      obtain ⟨f'', rfl⟩ : ∃ f'', f' = f'' + 1 := ⟨f' - 1, by omega⟩
      simp only [arrayLoopF]
      rw [if_pos hltN, hcharN]
      simp
    | cons y ys =>
      have hPL2 : printList (x :: y :: ys) =
          printJSON x ++ (',' :: ' ' :: printList (y :: ys)) := by
        simp [printList]
      have hdx : json.drop s0 =
          printJSON x ++ (',' :: (' ' :: (printList (y :: ys) ++ (']' :: rest')))) := by
        rw [hdropS, hPL2]
        simp
      obtain ⟨Nx, hNx⟩ := hPx json i s0 _ hws hdx
        (Or.inr ⟨',', _, rfl, Or.inl rfl⟩)
      have hdropnext : json.drop (s0 + (printJSON x).length) =
          ',' :: (' ' :: (printList (y :: ys) ++ (']' :: rest'))) := by
        have h := drop_add (printJSON x).length hdx
        rwa [List.drop_left] at h
      obtain ⟨hcharN, hdN1, hltN⟩ := drop_cons_facts hdropnext
      obtain ⟨Nxs, hNxs⟩ := ih hxs (s0 + (printJSON x).length + 1) (acc ++ [x])
        [' '] rest' (Or.inr ⟨rfl, by simp⟩) (by simpa using hdN1)
      refine ⟨Nx + Nxs + 1, fun f hf => ?_⟩
      obtain ⟨f', rfl⟩ : ∃ f', f = f' + 1 := ⟨f - 1, by omega⟩
      simp only [arrayLoopF]
      rw [if_pos hlti, if_neg hci, hNx f' (by omega)]
      simp only [hcharN, reduceIte]
      rw [hNxs f' (by omega)]
      simp [hPL2, List.append_assoc]
      omega

theorem dictInsert_fresh {acc : List (List Char × JSONObject)} {k : List Char}
    {v : JSONObject} (h : k ∉ acc.map Prod.fst) :
    dictInsert acc k v = acc ++ [(k, v)] := by
  induction acc with
  | nil => rfl
  | cons p tl ih =>
    simp only [List.map_cons, List.mem_cons, not_or] at h
    simp only [dictInsert]
    rw [if_neg (fun he => h.1 he.symm), ih h.2]
    simp

theorem printDict_single (p : List Char × JSONObject) :
    printDict [p] = '"' :: (p.1 ++ ('"' :: ':' :: ' ' :: printJSON p.2)) := by
  simp [printDict]

theorem printDict_cons2 (p p2 : List Char × JSONObject)
    (tl : List (List Char × JSONObject)) :
    printDict (p :: p2 :: tl) =
      '"' :: (p.1 ++ ('"' :: ':' :: ' ' ::
        (printJSON p.2 ++ (',' :: ' ' :: printDict (p2 :: tl))))) := by
  simp [printDict]

theorem printStr_parts (k : List Char) :
    printJSON (.str k) = '"' :: (k ++ ['"']) ∧
    (printJSON (.str k)).length = k.length + 2 := by
  constructor
  · simp [printJSON]
  · simp [printJSON]

theorem objLoopF_print {json : List Char} :
    ∀ (d : List (List Char × JSONObject)),
      (∀ p ∈ d, safeStr p.1 ∧ ParsesPrint p.2 ∧ printSafe p.2) →
    ∀ (i : Nat) (acc : List (List Char × JSONObject)) (sp rest' : List Char),
      (sp = [] ∨ (sp = [' '] ∧ d ≠ [])) →
      (∀ p ∈ d, p.1 ∉ acc.map Prod.fst) →
      (d.map Prod.fst).Nodup →
      json.drop i = sp ++ (printDict d ++ ('}' :: rest')) →
      ∃ N, ∀ f, N ≤ f → objLoopF f json i acc =
        some (some (JSONObject.dict (acc ++ d),
          i + sp.length + (printDict d).length + 1)) := by
  intro d
  induction d with
  | nil =>
    intro _ i acc sp rest' hsp _ _ hdrop
    rcases hsp with rfl | ⟨-, hne⟩
    swap
    · exact absurd rfl hne
    simp only [printDict, List.nil_append] at hdrop
    obtain ⟨hc, -, hlt⟩ := drop_cons_facts hdrop
    refine ⟨1, fun f hf => ?_⟩
    obtain ⟨f', rfl⟩ : ∃ f', f = f' + 1 := ⟨f - 1, by omega⟩
    simp only [objLoopF]
    rw [if_pos hlt, hc]
    simp [printDict]
  | cons p tl ih =>
    intro helem i acc sp rest' hsp hfresh hnd hdrop
    obtain ⟨hsafek, hPv, hSv⟩ := helem p (by simp)
    have htl : ∀ q ∈ tl, safeStr q.1 ∧ ParsesPrint q.2 ∧ printSafe q.2 :=
      fun q hq => helem q (by simp [hq])
    have hfk : p.1 ∉ acc.map Prod.fst := hfresh p (by simp)
    obtain ⟨cv, tlv, hheadv, hwsv, -, -, -, -⟩ := printJSON_head hSv
    suffices H : ∀ s0, skipWs json i = s0 →
        json.drop s0 = printDict (p :: tl) ++ ('}' :: rest') →
        charAt json i ≠ '}' → i < json.length →
        ∃ N, ∀ f, N ≤ f → objLoopF f json i acc =
          some (some (JSONObject.dict (acc ++ (p :: tl)),
            s0 + (printDict (p :: tl)).length + 1)) by
      rcases hsp with rfl | ⟨rfl, -⟩
      · simp only [List.nil_append] at hdrop
        have hdropc : ∃ tail, json.drop i = '"' :: tail := by
          cases tl with
          | nil =>
            exact ⟨p.1 ++ ('"' :: ':' :: ' ' :: (printJSON p.2 ++ ('}' :: rest'))),
              by rw [hdrop, printDict_single]; simp⟩
          | cons p2 tls =>
            exact ⟨p.1 ++ ('"' :: ':' :: ' ' :: (printJSON p.2 ++
              (',' :: ' ' :: (printDict (p2 :: tls) ++ ('}' :: rest'))))),
              by rw [hdrop, printDict_cons2]; simp⟩
        obtain ⟨tail, hdropc⟩ := hdropc
        obtain ⟨hchari, -, hlti⟩ := drop_cons_facts hdropc
        have h := H i (skipWs_nonspace hdropc (by decide)) hdrop
          (by rw [hchari]; decide) hlti
        simpa using h
      · have hdropc1 : json.drop i = ' ' :: (printDict (p :: tl) ++ ('}' :: rest')) := by
          simpa using hdrop
        obtain ⟨hchari, hd1, hlti⟩ := drop_cons_facts hdropc1
        have hws : skipWs json i = i + 1 := by
          rw [skipWs_space hdropc1 (by decide)]
          have hdropc2 : ∃ tail, json.drop (i + 1) = '"' :: tail := by
            cases tl with
            | nil =>
              exact ⟨p.1 ++ ('"' :: ':' :: ' ' :: (printJSON p.2 ++ ('}' :: rest'))),
                by rw [hd1, printDict_single]; simp⟩
            | cons p2 tls =>
              exact ⟨p.1 ++ ('"' :: ':' :: ' ' :: (printJSON p.2 ++
                (',' :: ' ' :: (printDict (p2 :: tls) ++ ('}' :: rest'))))),
                by rw [hd1, printDict_cons2]; simp⟩
          obtain ⟨tail, hdropc2⟩ := hdropc2
          exact skipWs_nonspace hdropc2 (by decide)
        have h := H (i + 1) hws hd1 (by rw [hchari]; decide) hlti
        have harith : i + 1 + (printDict (p :: tl)).length + 1 =
            i + [' '].length + (printDict (p :: tl)).length + 1 := by simp
        rw [harith] at h
        exact h
    intro s0 hws hdropS hci hlti
    cases tl with
    | nil =>
      have hdropK : json.drop s0 = printJSON (.str p.1) ++
          (':' :: ' ' :: (printJSON p.2 ++ ('}' :: rest'))) := by
        rw [hdropS, printDict_single, (printStr_parts p.1).1]
        simp
      have hKeyAll : ∀ f', 1 ≤ f' →
          parseF f' json i = some (JSONObject.str p.1, s0 + (p.1.length + 2)) := by
        intro f' hf'
        obtain ⟨g, rfl⟩ : ∃ g, f' = g + 1 := ⟨f' - 1, by omega⟩
        have h := @parse_str_print json i g s0 p.1
          (':' :: ' ' :: (printJSON p.2 ++ ('}' :: rest'))) hws hdropK hsafek
        rwa [(printStr_parts p.1).2] at h
      have hdropColon : json.drop (s0 + (p.1.length + 2)) =
          ':' :: (' ' :: (printJSON p.2 ++ ('}' :: rest'))) := by
        have h := drop_add (printJSON (.str p.1)).length hdropK
        rw [List.drop_left] at h
        rwa [(printStr_parts p.1).2] at h
      obtain ⟨hcChar, hdAfterColon, hltC⟩ := drop_cons_facts hdropColon
      have hdv : json.drop (s0 + (p.1.length + 2) + 1 + 1) =
          printJSON p.2 ++ ('}' :: rest') := by
        have h := (drop_cons_facts hdAfterColon).2.1
        simpa using h
      have hwsVal : skipWs json (s0 + (p.1.length + 2) + 1) =
          s0 + (p.1.length + 2) + 1 + 1 := by
        rw [skipWs_space hdAfterColon (by decide)]
        have hdvc : json.drop (s0 + (p.1.length + 2) + 1 + 1) =
            cv :: (tlv ++ ('}' :: rest')) := by
          rw [hdv, hheadv]
          simp
        exact skipWs_nonspace hdvc hwsv
      obtain ⟨Nv, hNv⟩ := hPv json (s0 + (p.1.length + 2) + 1)
        (s0 + (p.1.length + 2) + 1 + 1) ('}' :: rest') hwsVal hdv
        (Or.inr ⟨'}', rest', rfl, Or.inr (Or.inr rfl)⟩)
      have hdropEnd : json.drop (s0 + (p.1.length + 2) + 1 + 1 +
          (printJSON p.2).length) = '}' :: rest' := by
        have h := drop_add (printJSON p.2).length hdv
        rwa [List.drop_left] at h
      obtain ⟨hEndChar, -, hltEnd⟩ := drop_cons_facts hdropEnd
      refine ⟨Nv + 2, fun f hf => ?_⟩
      obtain ⟨f', rfl⟩ : ∃ f', f = f' + 1 := ⟨f - 1, by omega⟩
      simp only [objLoopF]
      rw [if_pos hlti, if_neg hci, hKeyAll f' (by omega)]
      simp only [hcChar, reduceIte]
      rw [hNv f' (by omega)]
      simp only [hEndChar, reduceIte]
      rw [if_neg (show ¬(('}' : Char) = ',') from by decide)]
      rw [dictInsert_fresh hfk]
      obtain ⟨f'', rfl⟩ : ∃ f'', f' = f'' + 1 := ⟨f' - 1, by omega⟩
      simp only [objLoopF]
      rw [if_pos hltEnd, hEndChar]
      simp [printDict_single]
      omega
    | cons p2 tls =>
      have hdropK : json.drop s0 = printJSON (.str p.1) ++
          (':' :: ' ' :: (printJSON p.2 ++
            (',' :: ' ' :: (printDict (p2 :: tls) ++ ('}' :: rest'))))) := by
        rw [hdropS, printDict_cons2, (printStr_parts p.1).1]
        simp
      have hKeyAll : ∀ f', 1 ≤ f' →
          parseF f' json i = some (JSONObject.str p.1, s0 + (p.1.length + 2)) := by
        intro f' hf'
        obtain ⟨g, rfl⟩ : ∃ g, f' = g + 1 := ⟨f' - 1, by omega⟩
        have h := @parse_str_print json i g s0 p.1
          (':' :: ' ' :: (printJSON p.2 ++
            (',' :: ' ' :: (printDict (p2 :: tls) ++ ('}' :: rest'))))) hws hdropK hsafek
        rwa [(printStr_parts p.1).2] at h
      have hdropColon : json.drop (s0 + (p.1.length + 2)) =
          ':' :: (' ' :: (printJSON p.2 ++
            (',' :: ' ' :: (printDict (p2 :: tls) ++ ('}' :: rest'))))) := by
        have h := drop_add (printJSON (.str p.1)).length hdropK
        rw [List.drop_left] at h
        rwa [(printStr_parts p.1).2] at h
      obtain ⟨hcChar, hdAfterColon, hltC⟩ := drop_cons_facts hdropColon
      have hdv : json.drop (s0 + (p.1.length + 2) + 1 + 1) =
          printJSON p.2 ++ (',' :: ' ' :: (printDict (p2 :: tls) ++ ('}' :: rest'))) := by
        have h := (drop_cons_facts hdAfterColon).2.1
        simpa using h
      have hwsVal : skipWs json (s0 + (p.1.length + 2) + 1) =
          s0 + (p.1.length + 2) + 1 + 1 := by
        rw [skipWs_space hdAfterColon (by decide)]
        have hdvc : json.drop (s0 + (p.1.length + 2) + 1 + 1) =
            cv :: (tlv ++ (',' :: ' ' :: (printDict (p2 :: tls) ++ ('}' :: rest')))) := by
          rw [hdv, hheadv]
          simp
        exact skipWs_nonspace hdvc hwsv
      obtain ⟨Nv, hNv⟩ := hPv json (s0 + (p.1.length + 2) + 1)
        (s0 + (p.1.length + 2) + 1 + 1)
        (',' :: ' ' :: (printDict (p2 :: tls) ++ ('}' :: rest'))) hwsVal hdv
        (Or.inr ⟨',', _, rfl, Or.inl rfl⟩)
      have hdropEnd : json.drop (s0 + (p.1.length + 2) + 1 + 1 +
          (printJSON p.2).length) =
          ',' :: (' ' :: (printDict (p2 :: tls) ++ ('}' :: rest'))) := by
        have h := drop_add (printJSON p.2).length hdv
        rw [List.drop_left] at h
        simpa using h
      obtain ⟨hEndChar, hdAfterComma, hltEnd⟩ := drop_cons_facts hdropEnd
      have hfresh2 : ∀ q ∈ p2 :: tls, q.1 ∉ ((acc ++ [p]).map Prod.fst) := by
        intro q hq
        have h1 : q.1 ∉ acc.map Prod.fst := hfresh q (by simp [hq])
        have hk : p.1 ∉ ((p2 :: tls).map Prod.fst) := by
          simp only [List.map_cons] at hnd
          exact (List.nodup_cons.mp hnd).1
        have h2 : q.1 ≠ p.1 := by
          intro he
          exact hk (he ▸ List.mem_map_of_mem Prod.fst hq)
        simp [h1, h2]
      have hnd2 : ((p2 :: tls).map Prod.fst).Nodup := by
        simp only [List.map_cons] at hnd
        exact (List.nodup_cons.mp hnd).2
      obtain ⟨Nd, hNd⟩ := ih htl
        (s0 + (p.1.length + 2) + 1 + 1 + (printJSON p.2).length + 1)
        (acc ++ [p]) [' '] rest' (Or.inr ⟨rfl, by simp⟩) hfresh2 hnd2
        (by simpa using hdAfterComma)
      refine ⟨Nv + Nd + 2, fun f hf => ?_⟩
      obtain ⟨f', rfl⟩ : ∃ f', f = f' + 1 := ⟨f - 1, by omega⟩
      simp only [objLoopF]
      rw [if_pos hlti, if_neg hci, hKeyAll f' (by omega)]
      simp only [hcChar, reduceIte]
      rw [hNv f' (by omega)]
      simp only [hEndChar, reduceIte]
      rw [dictInsert_fresh hfk]
      rw [hNd f' (by omega)]
      simp [printDict_cons2, List.append_assoc]
      omega

theorem parsesPrint_of : ∀ (n : Nat) (V : JSONObject), sizeOf V ≤ n →
    printSafe V → ParsesPrint V := by
  intro n
  induction n with
  | zero =>
    intro V hV hs
    cases V <;> simp at hV
  | succ n ihn =>
    intro V hV hs
    cases hs with
    | int i h1 h2 =>
      intro json start s rest hws hdrop hgf
      refine ⟨1, fun f hf => ?_⟩
      obtain ⟨f', rfl⟩ : ∃ f', f = f' + 1 := ⟨f - 1, by omega⟩
      have hdrop' : json.drop s = printInt i ++ rest := by
        simpa [printJSON] using hdrop
      have h := @parse_int_print json start f' s i rest hws hdrop' h1 h2
        (goodFollow_restStops hgf)
      simpa [printJSON] using h
    | str s0 hsafe =>
      intro json start s rest hws hdrop hgf
      refine ⟨1, fun f hf => ?_⟩
      obtain ⟨f', rfl⟩ : ∃ f', f = f' + 1 := ⟨f - 1, by omega⟩
      exact parse_str_print hws hdrop hsafe
    | list l hl =>
      intro json start s rest hws hdrop hgf
      have helem : ∀ x ∈ l, ParsesPrint x ∧ printSafe x := by
        intro x hx
        refine ⟨ihn x ?_ (hl x hx), hl x hx⟩
        have ha : sizeOf x < sizeOf l := List.sizeOf_lt_of_mem hx
        have hb : sizeOf (JSONObject.list l) = 1 + sizeOf l := by simp
        omega
      have hdrop' : json.drop s = '[' :: (printList l ++ (']' :: rest)) := by
        rw [hdrop]
        simp [printJSON]
      obtain ⟨hchar, hd1, hlt⟩ := drop_cons_facts hdrop'
      obtain ⟨NL, hNL⟩ := arrayLoopF_print l helem (s + 1) [] [] rest
        (Or.inl rfl) (by simpa using hd1)
      refine ⟨NL + 1, fun f hf => ?_⟩
      obtain ⟨f', rfl⟩ : ∃ f', f = f' + 1 := ⟨f - 1, by omega⟩
      simp only [parseF]
      rw [hws, if_pos hlt, hchar]
      rw [if_neg (by decide), if_neg (by decide), if_pos rfl, hNL f' (by omega)]
      simp [printJSON]
      omega
    | dict d hk hv hnd =>
      intro json start s rest hws hdrop hgf
      have helem : ∀ p ∈ d, safeStr p.1 ∧ ParsesPrint p.2 ∧ printSafe p.2 := by
        intro p hp
        refine ⟨hk p hp, ihn p.2 ?_ (hv p hp), hv p hp⟩
        have ha : sizeOf p < sizeOf d := List.sizeOf_lt_of_mem hp
        have hb : sizeOf p.2 < sizeOf p := by
          obtain ⟨pk, pv⟩ := p
          simp
        have hc : sizeOf (JSONObject.dict d) = 1 + sizeOf d := by simp
        omega
      have hdrop' : json.drop s = '{' :: (printDict d ++ ('}' :: rest)) := by
        rw [hdrop]
        simp [printJSON]
      obtain ⟨hchar, hd1, hlt⟩ := drop_cons_facts hdrop'
      obtain ⟨ND, hND⟩ := objLoopF_print d helem (s + 1) [] [] rest
        (Or.inl rfl) (by simp) hnd (by simpa using hd1)
      refine ⟨ND + 1, fun f hf => ?_⟩
      obtain ⟨f', rfl⟩ : ∃ f', f = f' + 1 := ⟨f - 1, by omega⟩
      simp only [parseF]
      rw [hws, if_pos hlt, hchar]
      rw [if_neg (by decide), if_neg (by decide)]
      rw [if_neg (by decide)]
      rw [if_pos rfl, hND f' (by omega)]
      simp [printJSON]
      omega

/-- The parse of this buffer from this offset never returns: every fuel
bound is exhausted. -/
def parseDiverges (json : List Char) (start : Nat) : Prop :=
  ∀ fuel, parseF fuel json start = none

theorem arrayLoopF_null_stalls :
    ∀ g res, arrayLoopF g "[null]".toList 1 res = none := by
  intro g
  induction g with
  | zero => intro res; rfl
  | succ g ih =>
    intro res
    cases g with
    | zero => rfl
    | succ g' => exact ih (res ++ [JSONObject.null])

/-- **C9** (counterexample): the tree `List [Null]` is obtained from a
successful parse of `"[ ]"` (the whitespace before `]` makes the
recursive parse contribute a spurious `Null` element).  Rendering it
gives the text `[null]`, and parsing that text never returns: the array
branch re-parses the unrecognized literal `null` forever at the
unchanged offset 1.  So re-parsing the rendered tree does not reproduce
the tree. -/
theorem c9_counterexample :
    parseF 10 "[ ]".toList 0 = some (JSONObject.list [JSONObject.null], 3) ∧
    printJSON (JSONObject.list [JSONObject.null]) = "[null]".toList ∧
    parseDiverges "[null]".toList 0 := by
  refine ⟨rfl, rfl, ?_⟩
  intro fuel
  cases fuel with
  | zero => rfl
  | succ g =>
    have hred : parseF (g + 1) "[null]".toList 0 =
        (match arrayLoopF g "[null]".toList 1 [] with
         | none => none
         | some (some r) => some r
         | some none => some (JSONObject.null, 0)) := rfl
    rw [hred, arrayLoopF_null_stalls g []]

/-- **C9** (amended): for every print-safe tree `V` — one containing
only in-range `Int` values, `String` values and keys free of characters
that would require re-escaping (`"` and `\`), and `List`/`Dict`
containers of such trees with pairwise-distinct keys — rendering `V`
and parsing the resulting text reproduces a tree equal to `V`, with the
cursor at the end of the rendered text.  `Null`, `Bool` and `Double`
are excluded: `null`/`true`/`false` are not recognized by the parser at
all, and a `Double` may re-render as an integer numeral and come back
as an `Int`. -/
theorem c9_render_parse_roundtrip (V : JSONObject) (hs : printSafe V) :
    ∃ N, ∀ f, N ≤ f →
      parseF f (printJSON V) 0 = some (V, (printJSON V).length) := by
  have hP := parsesPrint_of (sizeOf V) V (le_refl _) hs
  obtain ⟨c, tl, hhead, hws0, -, -, -, -⟩ := printJSON_head hs
  have hws : skipWs (printJSON V) 0 = 0 :=
    skipWs_nonspace (by rw [List.drop_zero, hhead]) hws0
  have hdrop : (printJSON V).drop 0 = printJSON V ++ [] := by simp
  obtain ⟨N, hN⟩ := hP (printJSON V) 0 0 [] hws hdrop (Or.inl rfl)
  exact ⟨N, fun f hf => by simpa using hN f hf⟩

/-- Witness for `c9_render_parse_roundtrip` at the tree
`List [String "a", String "b"]`, whose rendering is `["a", "b"]`. -/
theorem c9_witness :
    printSafe (JSONObject.list [JSONObject.str ['a'], JSONObject.str ['b']]) ∧
    printJSON (JSONObject.list [JSONObject.str ['a'], JSONObject.str ['b']]) =
      "[\"a\", \"b\"]".toList ∧
    (∃ N, ∀ f, N ≤ f →
      parseF f (printJSON (JSONObject.list [JSONObject.str ['a'], JSONObject.str ['b']])) 0 =
        some (JSONObject.list [JSONObject.str ['a'], JSONObject.str ['b']],
          (printJSON (JSONObject.list [JSONObject.str ['a'], JSONObject.str ['b']])).length)) := by
  have hsafe : printSafe (JSONObject.list [JSONObject.str ['a'], JSONObject.str ['b']]) := by
    refine printSafe.list _ ?_
    intro x hx
    simp at hx
    rcases hx with rfl | rfl <;>
      exact printSafe.str _ (fun c hc => by simp at hc; subst hc; decide)
  exact ⟨hsafe, rfl, c9_render_parse_roundtrip _ hsafe⟩
